import Mathlib

/-
Verification of the breader package (shenwei356/breader), a buffered line
reader with chunked delivery and cooperative cancellation.

The Go source runs a single goroutine (`run` in BufferedReader.go) that, in a
loop, (1) polls the `done` channel non-blockingly, (2) reads one line with
`ReadString('\n')`, (3) applies `ProcessFunc` to the line, (4) accumulates
kept results into the current chunk, emitting the chunk on `Ch` when it
reaches `ChunkSize`.  On EOF the residual string returned with the EOF is
also processed and a final chunk is emitted.  Every exit path sends a final
chunk, closes `Ch`, sets `finished`, and closes the underlying reader.

We embed this loop as a recursive function over the list of lines the
source yields.  The input stream is a list of lines (each line is what one
`ReadString('\n')` call returns) followed by an `Ending`: either EOF
together with the residual string returned alongside it, or a read error.
Cancellation is modelled by an optional iteration index from which the
non-blocking poll of `done` observes the closed channel.
-/

namespace Breader

/-- Errors delivered on a chunk: either the distinguished `ErrorCanceled`
value, or an error value coming from the transform function or from the
line source (in Go all of these inhabit the `error` interface). -/
inductive BErr (ε : Type) where
  | canceled : BErr ε
  | err (e : ε) : BErr ε
  deriving DecidableEq, Repr

/-- Mirrors Go `type Chunk struct { ID uint64; Data []interface{}; Err error }`. -/
structure Chunk (α ε : Type) where
  ID : Nat
  Data : List α
  Err : Option (BErr ε)
  deriving DecidableEq, Repr

/-- How the line source ends: EOF carrying the residual string returned by
the final `ReadString` call, or a read failure (err ≠ io.EOF). -/
inductive Ending (ε : Type) where
  | eof (residual : String) : Ending ε
  | fail (e : ε) : Ending ε
  deriving DecidableEq, Repr

/-- Result of the `run` goroutine: the sequence of chunks sent on `Ch` in
send order, together with how many times `Ch` was closed, how many times
the underlying reader was closed, and the final value of `finished`. -/
structure RunResult (α ε : Type) where
  chunks : List (Chunk α ε)
  chCloseCount : Nat
  readerCloseCount : Nat
  finished : Bool
  deriving DecidableEq, Repr

/-- Whether the non-blocking `select` on `reader.done` observes the closed
channel at loop iteration `t`: `cancelAt = some c` means `Cancel` was called
early enough that from iteration `c` on the poll sees the closed channel. -/
def obsCancel : Option Nat → Nat → Bool
  | none, _ => false
  | some c, t => c ≤ t

/-- The loop body of the `run` goroutine of BufferedReader.go.  `fn` is
`ProcessFunc` (returns value, keep flag, error), `cs` is `ChunkSize`
(clamped ≥ 1 by `initBufferedReader`), `t` the loop iteration index, `id`
the next chunk ID, `acc` the current chunk buffer `chunkData[0:i]`. -/
def runFrom (fn : String → α × Bool × Option ε) (cs : Nat) (cancelAt : Option Nat) :
    List String → Nat → Nat → List α → Ending ε → RunResult α ε
  | [], t, id, acc, ending =>
    if obsCancel cancelAt t then
      ⟨[⟨id, acc, some .canceled⟩], 1, 1, true⟩
    else
      match ending with
      | .eof residual =>
        match fn residual with
        | (_, _, some e) => ⟨[⟨id, acc, some (.err e)⟩], 1, 1, true⟩
        | (res, ok, none) => ⟨[⟨id, if ok then acc ++ [res] else acc, none⟩], 1, 1, true⟩
      | .fail e => ⟨[⟨id, acc, some (.err e)⟩], 1, 1, true⟩
  | l :: rest, t, id, acc, ending =>
    if obsCancel cancelAt t then
      ⟨[⟨id, acc, some .canceled⟩], 1, 1, true⟩
    else
      match fn l with
      | (_, _, some e) => ⟨[⟨id, acc, some (.err e)⟩], 1, 1, true⟩
      | (res, ok, none) =>
        let acc2 := if ok then acc ++ [res] else acc
        if acc2.length = cs then
          let r := runFrom fn cs cancelAt rest (t + 1) (id + 1) [] ending
          ⟨⟨id, acc2, none⟩ :: r.chunks, r.chCloseCount, r.readerCloseCount, r.finished⟩
        else
          runFrom fn cs cancelAt rest (t + 1) id acc2 ending

/-- A whole run of the goroutine started by `BufferedReader.run`. -/
def runBR (fn : String → α × Bool × Option ε) (cs : Nat) (cancelAt : Option Nat)
    (lines : List String) (ending : Ending ε) : RunResult α ε :=
  runFrom fn cs cancelAt lines 0 0 [] ending

/-- The values the loop keeps from a list of lines: `fn l` returned no error
and the keep flag was true. -/
def keptOf (fn : String → α × Bool × Option ε) (lines : List String) : List α :=
  lines.filterMap fun l =>
    match fn l with
    | (res, true, none) => some res
    | _ => none

/-- What the EOF branch appends for the residual string. -/
def eofKeep (fn : String → α × Bool × Option ε) (residual : String) : List α :=
  match fn residual with
  | (res, true, none) => [res]
  | _ => []

/-- The elements of `xs` left in the chunk buffer after all full chunks of
size `cs` have been emitted. -/
def leftover (cs : Nat) (xs : List α) : List α :=
  xs.drop (cs * (xs.length / cs))

/-- Sequential reference computation, following the spec's words: the lines
for which a plain sequential application of the transform returns the keep
flag true. -/
def seqKeptCount (fn : String → α × Bool × Option ε) (lines : List String) : Nat :=
  (lines.filter fun l => (fn l).2.1).length

/-- Go `strings.TrimRight(line, "\n")`: remove all trailing newline chars. -/
def trimRightNewline (s : String) : String :=
  String.mk ((s.data.reverse.dropWhile fun c => c = '\n').reverse)

/-- Mirrors `breader.DefaultFunc`: trim the newline, keep every line. -/
def DefaultFunc (line : String) : String × Bool × Option String :=
  (trimRightNewline line, true, none)

/-- The transform of the spec's end-to-end example: skip lines equal to
"#\n", otherwise keep the newline-trimmed line. -/
def fnExample (line : String) : String × Bool × Option String :=
  if line = "#\n" then ("", false, none) else (trimRightNewline line, true, none)

/-- The input lines of the spec's end-to-end example. -/
def linesExample : List String := ["a\n", "b\n", "#\n", "c\n"]

/-- A transform that fails (with error message "boom") on the line
"BAD\n" and otherwise keeps the trimmed line; used to exercise the
transform-error path on concrete inputs. -/
def fnFailExample (line : String) : String × Bool × Option String :=
  if line = "BAD\n" then ("", false, some "boom")
  else (trimRightNewline line, true, none)

/-- Result of `initBufferedReader`: the stored `BufferSize` and `ChunkSize`
fields and the capacity of the channel `make(chan Chunk, bufferSize)`. -/
structure InitResult where
  BufferSize : Int
  ChunkSize : Int
  chCapacity : Int
  deriving DecidableEq, Repr

/-- Mirrors `initBufferedReader` (BufferedReader.go): `bufferSize < 0` is
clamped to 0, `chunkSize < 1` is clamped to 1, and `Ch` is created with
capacity `bufferSize`. -/
def initBufferedReader (bufferSize chunkSize : Int) : InitResult :=
  let b := if bufferSize < 0 then 0 else bufferSize
  let c := if chunkSize < 1 then 1 else chunkSize
  ⟨b, c, b⟩

/-- State touched by the `Cancel` method: the `finished` and `cancelled`
flags and how many times the `done` channel and `Ch` have been closed
(closing a Go channel twice panics, so a count ≤ 1 means no panic). -/
structure CancelState where
  finished : Bool
  cancelled : Bool
  doneCloseCount : Nat
  chCloseCount : Nat
  deriving DecidableEq, Repr

/-- Mirrors the `Cancel` method: close `done` and set `cancelled` only when
neither `finished` nor `cancelled` is set. -/
def Cancel (s : CancelState) : CancelState :=
  if s.finished = false ∧ s.cancelled = false then
    { s with doneCloseCount := s.doneCloseCount + 1, cancelled := true }
  else s

/-- The cancellation-related state right after `initBufferedReader`. -/
def initCancelState : CancelState := ⟨false, false, 0, 0⟩

/-- Events around each call of the transform function inside the `run`
goroutine: a call starts, a call returns. -/
inductive TEv where
  | tbegin : TEv
  | tend : TEv
  deriving DecidableEq, Repr

/-- The trace of transform invocations the `run` goroutine performs, in
program order: one begin/end pair per line read, plus one pair for the EOF
residual.  The goroutine is the only invoker of the transform, so the trace
is the complete record of transform activity. -/
def traceFrom (fn : String → α × Bool × Option ε) (cancelAt : Option Nat) :
    List String → Nat → Ending ε → List TEv
  | [], t, ending =>
    if obsCancel cancelAt t then []
    else
      match ending with
      | .eof _ => [.tbegin, .tend]
      | .fail _ => []
  | l :: rest, t, ending =>
    if obsCancel cancelAt t then []
    else
      match fn l with
      | (_, _, some _) => [.tbegin, .tend]
      | (_, _, none) => .tbegin :: .tend :: traceFrom fn cancelAt rest (t + 1) ending

/-- Running maximum of the nesting depth of begin/end events, starting at
depth `d` with maximum-so-far `m`. -/
def maxNestAux : Nat → Nat → List TEv → Nat
  | _, m, [] => m
  | d, m, .tbegin :: tr => maxNestAux (d + 1) (max m (d + 1)) tr
  | d, m, .tend :: tr => maxNestAux (d - 1) m tr

/-- The largest number of transform invocations simultaneously in flight
over the whole trace. -/
def maxInFlight (tr : List TEv) : Nat := maxNestAux 0 0 tr

/-- When the cancellation poll fires, the loop emits the current buffer with
`ErrorCanceled`, closes `Ch`, closes the reader, and returns: the result is
independent of the remaining input. -/
theorem runFrom_cancel {α ε : Type} (fn : String → α × Bool × Option ε) (cs : Nat)
    (cancelAt : Option Nat) (lines : List String) (t id : Nat) (acc : List α)
    (ending : Ending ε) (h : obsCancel cancelAt t = true) :
    runFrom fn cs cancelAt lines t id acc ending
      = ⟨[⟨id, acc, some .canceled⟩], 1, 1, true⟩ := by
  cases lines <;> simp [runFrom, h]

/-- Every exit path of the loop closes `Ch` once, closes the reader once,
and sets `finished`. -/
theorem runFrom_closes {α ε : Type} (fn : String → α × Bool × Option ε) (cs : Nat)
    (cancelAt : Option Nat) :
    ∀ (lines : List String) (t id : Nat) (acc : List α) (ending : Ending ε),
      (runFrom fn cs cancelAt lines t id acc ending).chCloseCount = 1
      ∧ (runFrom fn cs cancelAt lines t id acc ending).readerCloseCount = 1
      ∧ (runFrom fn cs cancelAt lines t id acc ending).finished = true := by
  intro lines
  induction lines with
  | nil =>
    intro t id acc ending
    by_cases h : obsCancel cancelAt t
    · simp [runFrom, h]
    · cases ending with
      | eof residual =>
        rcases hr : fn residual with ⟨res, ok, er⟩
        cases er <;> simp [runFrom, h, hr]
      | fail e => simp [runFrom, h]
  | cons l rest ih =>
    intro t id acc ending
    by_cases h : obsCancel cancelAt t
    · simp [runFrom, h]
    · rcases hl : fn l with ⟨res, ok, er⟩
      cases er with
      | some e => simp [runFrom, h, hl]
      | none =>
        simp only [runFrom, h, hl, Bool.false_eq_true, if_false]
        by_cases h2 : (if ok then acc ++ [res] else acc).length = cs
        · simpa [h2] using ih (t + 1) (id + 1) [] ending
        · simpa [h2] using ih (t + 1) id (if ok then acc ++ [res] else acc) ending

/-- The IDs of the chunks the loop sends, in send order, form the
contiguous range starting at the current `id`. -/
theorem runFrom_map_id {α ε : Type} (fn : String → α × Bool × Option ε) (cs : Nat)
    (cancelAt : Option Nat) :
    ∀ (lines : List String) (t id : Nat) (acc : List α) (ending : Ending ε),
      (runFrom fn cs cancelAt lines t id acc ending).chunks.map Chunk.ID
        = List.range' id (runFrom fn cs cancelAt lines t id acc ending).chunks.length := by
  intro lines
  induction lines with
  | nil =>
    intro t id acc ending
    by_cases h : obsCancel cancelAt t
    · simp [runFrom, h]
    · cases ending with
      | eof residual =>
        rcases hr : fn residual with ⟨res, ok, er⟩
        cases er <;> simp [runFrom, h, hr]
      | fail e => simp [runFrom, h]
  | cons l rest ih =>
    intro t id acc ending
    by_cases h : obsCancel cancelAt t
    · simp [runFrom, h]
    · rcases hl : fn l with ⟨res, ok, er⟩
      cases er with
      | some e => simp [runFrom, h, hl]
      | none =>
        simp only [runFrom, h, hl, Bool.false_eq_true, if_false]
        by_cases h2 : (if ok then acc ++ [res] else acc).length = cs
        · have := ih (t + 1) (id + 1) [] ending
          simp only [h2, if_true, List.map_cons, List.length_cons, this,
            List.range'_succ]
        · simpa [h2] using ih (t + 1) id (if ok then acc ++ [res] else acc) ending

theorem keptOf_nil {α ε : Type} (fn : String → α × Bool × Option ε) :
    keptOf fn [] = [] := rfl

theorem keptOf_cons_keep {α ε : Type} (fn : String → α × Bool × Option ε)
    (l : String) (rest : List String) (res : α) (h : fn l = (res, true, none)) :
    keptOf fn (l :: rest) = res :: keptOf fn rest := by
  simp [keptOf, h]

theorem keptOf_cons_skip {α ε : Type} (fn : String → α × Bool × Option ε)
    (l : String) (rest : List String) (res : α) (h : fn l = (res, false, none)) :
    keptOf fn (l :: rest) = keptOf fn rest := by
  simp [keptOf, h]

theorem leftover_of_lt {α : Type} (cs : Nat) (xs : List α) (h : xs.length < cs) :
    leftover cs xs = xs := by
  simp [leftover, Nat.div_eq_of_lt h]

theorem leftover_append_full {α : Type} (cs : Nat) (xs ys : List α) (hcs : 0 < cs)
    (h : xs.length = cs) : leftover cs (xs ++ ys) = leftover cs ys := by
  unfold leftover
  rw [List.length_append, h, Nat.add_comm cs ys.length, Nat.add_div_right _ hcs,
    Nat.mul_succ, Nat.add_comm (cs * (ys.length / cs)) cs, ← List.drop_drop, ← h,
    List.drop_left]

/-- Error-free run: the concatenation of the `Data` of all sent chunks is
the current buffer followed by the kept results of the remaining lines and
of the EOF residual. -/
theorem runFrom_noerr_flatten {α ε : Type} (fn : String → α × Bool × Option ε)
    (cs : Nat) :
    ∀ (lines : List String) (t id : Nat) (acc : List α) (residual : String),
      (∀ l ∈ lines, (fn l).2.2 = none) → (fn residual).2.2 = none →
      ((runFrom fn cs none lines t id acc (.eof residual)).chunks.map Chunk.Data).flatten
        = acc ++ keptOf fn lines ++ eofKeep fn residual := by
  intro lines
  induction lines with
  | nil =>
    intro t id acc residual _ hres
    rcases hr : fn residual with ⟨res, ok, er⟩
    rw [hr] at hres
    cases er with
    | some e => exact absurd hres (by simp)
    | none =>
      cases ok <;> simp [runFrom, obsCancel, hr, keptOf_nil, eofKeep]
  | cons l rest ih =>
    intro t id acc residual hlines hres
    have hl : (fn l).2.2 = none := hlines l (List.mem_cons_self l rest)
    have hrest : ∀ x ∈ rest, (fn x).2.2 = none :=
      fun x hx => hlines x (List.mem_cons_of_mem l hx)
    rcases hfl : fn l with ⟨res, ok, er⟩
    rw [hfl] at hl
    cases er with
    | some e => exact absurd hl (by simp)
    | none =>
      cases ok with
      | true =>
        rw [keptOf_cons_keep fn l rest res hfl]
        by_cases h2 : acc.length + 1 = cs
        · simp [runFrom, obsCancel, hfl, h2, ih (t + 1) (id + 1) [] residual hrest hres]
        · simp [runFrom, obsCancel, hfl, h2,
            ih (t + 1) id (acc ++ [res]) residual hrest hres]
      | false =>
        rw [keptOf_cons_skip fn l rest res hfl]
        by_cases h2 : acc.length = cs
        · simp [runFrom, obsCancel, hfl, h2, ih (t + 1) (id + 1) [] residual hrest hres]
        · simp [runFrom, obsCancel, hfl, h2, ih (t + 1) id acc residual hrest hres]

/-- Error-free run: the loop always ends by sending a final chunk whose
`Data` is the leftover of the kept results (the part that never filled a
chunk) followed by whatever the EOF branch keeps from the residual, and
whose `Err` is nil. -/
theorem runFrom_noerr_last {α ε : Type} (fn : String → α × Bool × Option ε) (cs : Nat)
    (hcs : 1 ≤ cs) :
    ∀ (lines : List String) (t id : Nat) (acc : List α) (residual : String),
      (∀ l ∈ lines, (fn l).2.2 = none) → (fn residual).2.2 = none → acc.length < cs →
      ∃ front lastId,
        (runFrom fn cs none lines t id acc (.eof residual)).chunks
          = front
            ++ [⟨lastId, leftover cs (acc ++ keptOf fn lines) ++ eofKeep fn residual,
                 none⟩] := by
  intro lines
  induction lines with
  | nil =>
    intro t id acc residual _ hres hacc
    rcases hr : fn residual with ⟨res, ok, er⟩
    rw [hr] at hres
    cases er with
    | some e => exact absurd hres (by simp)
    | none =>
      refine ⟨[], id, ?_⟩
      cases ok <;>
        simp [runFrom, obsCancel, hr, keptOf_nil, eofKeep, leftover_of_lt cs acc hacc]
  | cons l rest ih =>
    intro t id acc residual hlines hres hacc
    have hl : (fn l).2.2 = none := hlines l (List.mem_cons_self l rest)
    have hrest : ∀ x ∈ rest, (fn x).2.2 = none :=
      fun x hx => hlines x (List.mem_cons_of_mem l hx)
    rcases hfl : fn l with ⟨res, ok, er⟩
    rw [hfl] at hl
    cases er with
    | some e => exact absurd hl (by simp)
    | none =>
      cases ok with
      | true =>
        rw [keptOf_cons_keep fn l rest res hfl, List.append_cons acc res (keptOf fn rest)]
        by_cases h2 : acc.length + 1 = cs
        · have hfull : (acc ++ [res]).length = cs := by
            simpa using h2
          rw [leftover_append_full cs (acc ++ [res]) (keptOf fn rest) hcs hfull]
          obtain ⟨front, lastId, hfr⟩ :=
            ih (t + 1) (id + 1) ([] : List α) residual hrest hres hcs
          refine ⟨⟨id, acc ++ [res], none⟩ :: front, lastId, ?_⟩
          simp only [List.nil_append] at hfr
          simp [runFrom, obsCancel, hfl, h2, hfr]
        · have hacc2 : (acc ++ [res]).length < cs := by
            simp only [List.length_append, List.length_singleton]
            omega
          obtain ⟨front, lastId, hfr⟩ :=
            ih (t + 1) id (acc ++ [res]) residual hrest hres hacc2
          refine ⟨front, lastId, ?_⟩
          simp [runFrom, obsCancel, hfl, h2, hfr]
      | false =>
        rw [keptOf_cons_skip fn l rest res hfl]
        obtain ⟨front, lastId, hfr⟩ := ih (t + 1) id acc residual hrest hres hacc
        refine ⟨front, lastId, ?_⟩
        simp [runFrom, obsCancel, hfl, Nat.ne_of_lt hacc, hfr]

/-- Run that hits a transform error: the loop ends by sending a final chunk
whose `Data` is exactly the kept results accumulated in the current chunk
before the failing line and whose `Err` is the transform's error. -/
theorem runFrom_fail_last {α ε : Type} (fn : String → α × Bool × Option ε) (cs : Nat)
    (hcs : 1 ≤ cs) :
    ∀ (pre : List String) (t id : Nat) (acc : List α) (failLine : String) (e : ε)
      (post : List String) (ending : Ending ε),
      (∀ l ∈ pre, (fn l).2.2 = none) → (fn failLine).2.2 = some e → acc.length < cs →
      ∃ front lastId,
        (runFrom fn cs none (pre ++ failLine :: post) t id acc ending).chunks
          = front ++ [⟨lastId, leftover cs (acc ++ keptOf fn pre), some (.err e)⟩] := by
  intro pre
  induction pre with
  | nil =>
    intro t id acc failLine e post ending _ hfail hacc
    rcases hfl : fn failLine with ⟨r0, ok0, er0⟩
    rw [hfl] at hfail
    cases er0 with
    | none => exact absurd hfail (by simp)
    | some e0 =>
      obtain rfl : e0 = e := by simpa using hfail
      refine ⟨[], id, ?_⟩
      simp [runFrom, obsCancel, hfl, keptOf_nil, leftover_of_lt cs acc hacc]
  | cons l rest ih =>
    intro t id acc failLine e post ending hlines hfail hacc
    have hl : (fn l).2.2 = none := hlines l (List.mem_cons_self l rest)
    have hrest : ∀ x ∈ rest, (fn x).2.2 = none :=
      fun x hx => hlines x (List.mem_cons_of_mem l hx)
    rcases hfl : fn l with ⟨res, ok, er⟩
    rw [hfl] at hl
    cases er with
    | some e1 => exact absurd hl (by simp)
    | none =>
      cases ok with
      | true =>
        rw [keptOf_cons_keep fn l rest res hfl, List.append_cons acc res (keptOf fn rest)]
        by_cases h2 : acc.length + 1 = cs
        · have hfull : (acc ++ [res]).length = cs := by
            simpa using h2
          rw [leftover_append_full cs (acc ++ [res]) (keptOf fn rest) hcs hfull]
          obtain ⟨front, lastId, hfr⟩ :=
            ih (t + 1) (id + 1) ([] : List α) failLine e post ending hrest hfail hcs
          refine ⟨⟨id, acc ++ [res], none⟩ :: front, lastId, ?_⟩
          simp only [List.nil_append] at hfr
          simp [runFrom, obsCancel, hfl, h2, hfr]
        · have hacc2 : (acc ++ [res]).length < cs := by
            simp only [List.length_append, List.length_singleton]
            omega
          obtain ⟨front, lastId, hfr⟩ :=
            ih (t + 1) id (acc ++ [res]) failLine e post ending hrest hfail hacc2
          refine ⟨front, lastId, ?_⟩
          simp [runFrom, obsCancel, hfl, h2, hfr]
      | false =>
        rw [keptOf_cons_skip fn l rest res hfl]
        obtain ⟨front, lastId, hfr⟩ :=
          ih (t + 1) id acc failLine e post ending hrest hfail hacc
        refine ⟨front, lastId, ?_⟩
        simp [runFrom, obsCancel, hfl, Nat.ne_of_lt hacc, hfr]

/-- Once the transform fails on a line, nothing read after that line can
influence the run: the result is the same for every continuation of the
input and every ending. -/
theorem runFrom_fail_indep {α ε : Type} (fn : String → α × Bool × Option ε) (cs : Nat) :
    ∀ (pre : List String) (t id : Nat) (acc : List α) (failLine : String) (e : ε)
      (post post' : List String) (ending ending' : Ending ε),
      (∀ l ∈ pre, (fn l).2.2 = none) → (fn failLine).2.2 = some e →
      runFrom fn cs none (pre ++ failLine :: post) t id acc ending
        = runFrom fn cs none (pre ++ failLine :: post') t id acc ending' := by
  intro pre
  induction pre with
  | nil =>
    intro t id acc failLine e post post' ending ending' _ hfail
    rcases hfl : fn failLine with ⟨r0, ok0, er0⟩
    rw [hfl] at hfail
    cases er0 with
    | none => exact absurd hfail (by simp)
    | some e0 => simp [runFrom, obsCancel, hfl]
  | cons l rest ih =>
    intro t id acc failLine e post post' ending ending' hlines hfail
    have hl : (fn l).2.2 = none := hlines l (List.mem_cons_self l rest)
    have hrest : ∀ x ∈ rest, (fn x).2.2 = none :=
      fun x hx => hlines x (List.mem_cons_of_mem l hx)
    rcases hfl : fn l with ⟨res, ok, er⟩
    rw [hfl] at hl
    cases er with
    | some e1 => exact absurd hl (by simp)
    | none =>
      cases ok with
      | true =>
        by_cases h2 : acc.length + 1 = cs
        · have := ih (t + 1) (id + 1) ([] : List α) failLine e post post'
            ending ending' hrest hfail
          simp [runFrom, obsCancel, hfl, h2, this]
        · have := ih (t + 1) id (acc ++ [res]) failLine e post post'
            ending ending' hrest hfail
          simp [runFrom, obsCancel, hfl, h2, this]
      | false =>
        by_cases h2 : acc.length = cs
        · have := ih (t + 1) (id + 1) ([] : List α) failLine e post post'
            ending ending' hrest hfail
          simp [runFrom, obsCancel, hfl, h2, this]
        · have := ih (t + 1) id acc failLine e post post'
            ending ending' hrest hfail
          simp [runFrom, obsCancel, hfl, h2, this]

/-- In a chunk list whose IDs form a contiguous range, every chunk's ID is
bounded by the last chunk's ID. -/
theorem id_le_of_append_last {α ε : Type} (front : List (Chunk α ε)) (last : Chunk α ε)
    (i : Nat)
    (hr : (front ++ [last]).map Chunk.ID = List.range' i (front ++ [last]).length) :
    ∀ c ∈ front ++ [last], c.ID ≤ last.ID := by
  have hlen : (front ++ [last]).length = front.length + 1 := by simp
  have hlast : last.ID = i + front.length := by
    have h1 : (front ++ [last]).map Chunk.ID = front.map Chunk.ID ++ [last.ID] := by simp
    rw [h1, hlen, List.range'_concat] at hr
    have h2 := List.append_inj_right hr (by simp)
    simpa using h2
  intro c hc
  have hmem : c.ID ∈ (front ++ [last]).map Chunk.ID := List.mem_map_of_mem Chunk.ID hc
  rw [hr, hlen, List.mem_range'_1] at hmem
  omega

/-- For lines on which the transform reports no error, the kept results are
exactly the lines whose keep flag is true, as counted by the sequential
reference computation. -/
theorem keptOf_length_eq_seq {α ε : Type} (fn : String → α × Bool × Option ε) :
    ∀ (lines : List String), (∀ l ∈ lines, (fn l).2.2 = none) →
      (keptOf fn lines).length = seqKeptCount fn lines := by
  intro lines
  induction lines with
  | nil => intro _; rfl
  | cons l rest ih =>
    intro h
    have hl := h l (List.mem_cons_self l rest)
    have hrest : ∀ x ∈ rest, (fn x).2.2 = none :=
      fun x hx => h x (List.mem_cons_of_mem l hx)
    rcases hfl : fn l with ⟨res, ok, er⟩
    rw [hfl] at hl
    cases er with
    | some e => exact absurd hl (by simp)
    | none =>
      cases ok with
      | true =>
        rw [keptOf_cons_keep fn l rest res hfl]
        have hih := ih hrest
        simp only [seqKeptCount] at hih ⊢
        simp [List.filter_cons, hfl, hih]
      | false =>
        rw [keptOf_cons_skip fn l rest res hfl]
        have hih := ih hrest
        simp only [seqKeptCount] at hih ⊢
        simp [List.filter_cons, hfl, hih]

/-- The nesting depth of transform begin/end events never exceeds
`max m 1` when starting from depth 0 with running maximum `m`: the run
goroutine calls the transform strictly sequentially. -/
theorem maxNestAux_le {α ε : Type} (fn : String → α × Bool × Option ε)
    (cancelAt : Option Nat) :
    ∀ (lines : List String) (t : Nat) (ending : Ending ε) (m : Nat),
      maxNestAux 0 m (traceFrom fn cancelAt lines t ending) ≤ max m 1 := by
  intro lines
  induction lines with
  | nil =>
    intro t ending m
    by_cases h : obsCancel cancelAt t
    · simp [traceFrom, h, maxNestAux]
    · cases ending with
      | eof residual => simp [traceFrom, h, maxNestAux]
      | fail e => simp [traceFrom, h, maxNestAux]
  | cons l rest ih =>
    intro t ending m
    by_cases h : obsCancel cancelAt t
    · simp [traceFrom, h, maxNestAux]
    · rcases hfl : fn l with ⟨res, ok, er⟩
      cases er with
      | some e => simp [traceFrom, h, hfl, maxNestAux]
      | none =>
        calc maxNestAux 0 m (traceFrom fn cancelAt (l :: rest) t ending)
            = maxNestAux 0 (max m 1) (traceFrom fn cancelAt rest (t + 1) ending) := by
              simp [traceFrom, h, hfl, maxNestAux]
          _ ≤ max (max m 1) 1 := ih (t + 1) ending (max m 1)
          _ = max m 1 := by rw [Nat.max_assoc, Nat.max_self]

/-- In an error-free run ending in EOF with no cancellation, the transform
is invoked once per line plus exactly one extra time (on the residual). -/
theorem traceFrom_noerr_length {α ε : Type} (fn : String → α × Bool × Option ε) :
    ∀ (lines : List String) (t : Nat) (residual : String),
      (∀ l ∈ lines, (fn l).2.2 = none) →
      (traceFrom fn none lines t (.eof residual)).length = 2 * lines.length + 2 := by
  intro lines
  induction lines with
  | nil => intro t residual _; simp [traceFrom, obsCancel]
  | cons l rest ih =>
    intro t residual h
    have hl := h l (List.mem_cons_self l rest)
    have hrest : ∀ x ∈ rest, (fn x).2.2 = none :=
      fun x hx => h x (List.mem_cons_of_mem l hx)
    rcases hfl : fn l with ⟨res, ok, er⟩
    rw [hfl] at hl
    cases er with
    | some e => exact absurd hl (by simp)
    | none =>
      have hstep : traceFrom fn none (l :: rest) t (.eof residual)
          = .tbegin :: .tend :: traceFrom fn none rest (t + 1) (.eof residual) := by
        simp [traceFrom, obsCancel, hfl]
      rw [hstep, List.length_cons, List.length_cons, ih (t + 1) residual hrest]
      simp only [List.length_cons]
      omega

/-- When the transform fails on a line (all earlier lines succeeding), the
transform is invoked exactly once per earlier line plus once for the
failing line: lines after the failing one are never passed to it. -/
theorem traceFrom_fail_length {α ε : Type} (fn : String → α × Bool × Option ε) :
    ∀ (pre : List String) (t : Nat) (failLine : String) (post : List String)
      (ending : Ending ε),
      (∀ l ∈ pre, (fn l).2.2 = none) → (fn failLine).2.2.isSome →
      (traceFrom fn none (pre ++ failLine :: post) t ending).length
        = 2 * pre.length + 2 := by
  intro pre
  induction pre with
  | nil =>
    intro t failLine post ending _ hfail
    rcases hfl : fn failLine with ⟨r0, ok0, er0⟩
    rw [hfl] at hfail
    cases er0 with
    | none => exact absurd hfail (by simp)
    | some e0 => simp [traceFrom, obsCancel, hfl]
  | cons l rest ih =>
    intro t failLine post ending h hfail
    have hl := h l (List.mem_cons_self l rest)
    have hrest : ∀ x ∈ rest, (fn x).2.2 = none :=
      fun x hx => h x (List.mem_cons_of_mem l hx)
    rcases hfl : fn l with ⟨res, ok, er⟩
    rw [hfl] at hl
    cases er with
    | some e => exact absurd hl (by simp)
    | none =>
      have hstep : traceFrom fn none ((l :: rest) ++ failLine :: post) t ending
          = .tbegin :: .tend :: traceFrom fn none (rest ++ failLine :: post)
              (t + 1) ending := by
        simp [traceFrom, obsCancel, hfl]
      rw [hstep, List.length_cons, List.length_cons,
        ih (t + 1) failLine post ending hrest hfail]
      simp only [List.length_cons]
      omega

/-- Starting from the freshly initialized cancellation state, iterating
`Cancel` reaches only two states: the initial one and the
once-cancelled one. -/
theorem Cancel_iterate_cases :
    ∀ n : Nat, Cancel^[n] initCancelState = initCancelState
      ∨ Cancel^[n] initCancelState = ⟨false, true, 1, 0⟩ := by
  intro n
  induction n with
  | zero => exact Or.inl rfl
  | succ n ih =>
    rw [Function.iterate_succ_apply']
    rcases ih with h | h <;> rw [h]
    · exact Or.inr (by simp [Cancel, initCancelState])
    · exact Or.inr (by simp [Cancel])

/-- C1: For every transform, chunk size, cancellation schedule, input lines
and stream ending, the chunk IDs delivered on `Ch`, in delivery order, form
the contiguous range 0, 1, ..., k with no gaps and no duplicates: numbering
starts at 0 and each delivered chunk's ID — including a terminal
error-bearing chunk's — is exactly one greater than the previous one's. -/
theorem chunk_ids_contiguous {α ε : Type} (fn : String → α × Bool × Option ε)
    (cs : Nat) (cancelAt : Option Nat) (lines : List String) (ending : Ending ε) :
    (runBR fn cs cancelAt lines ending).chunks.map Chunk.ID
      = List.range (runBR fn cs cancelAt lines ending).chunks.length := by
  rw [List.range_eq_range']
  exact runFrom_map_id fn cs cancelAt lines 0 0 [] ending

/-- C2 counterexample: on the spec's end-to-end example (lines "a\n", "b\n",
"#\n", "c\n", chunk size 2, transform skipping "#\n" and keeping the
trimmed line) the concatenated Data of the delivered chunks is not
["a", "b", "c"]. -/
theorem example_concat_ne :
    ((runBR fnExample 2 none linesExample (.eof "")).chunks.map Chunk.Data).flatten
      ≠ ["a", "b", "c"] := by
  decide

/-- C2 amended: on the spec's end-to-end example the concatenated Data of
the delivered chunks equals ["a", "b", "c", ""]; the trailing empty string
is the kept result of applying the transform to the empty EOF residual. -/
theorem example_concat_eq :
    ((runBR fnExample 2 none linesExample (.eof "")).chunks.map Chunk.Data).flatten
      = ["a", "b", "c", ""] := by
  decide

/-- C3 counterexample: bufferSize = 0 is less than 1, yet the constructed
reader's BufferSize field is not 1 (it is 0, and Ch is unbuffered). -/
theorem buffer_clamp_counterexample :
    (0 : Int) < 1 ∧ (initBufferedReader 0 1000000).BufferSize ≠ 1 := by
  decide

/-- C3 amended: construction clamps the buffer parameter to a minimum of 0,
not 1: for every bufferSize argument less than 1, the constructed reader's
BufferSize field and the capacity of Ch equal 0 (an unbuffered channel). -/
theorem buffer_clamp_to_zero (bufferSize chunkSize : Int) (h : bufferSize < 1) :
    (initBufferedReader bufferSize chunkSize).BufferSize = 0
    ∧ (initBufferedReader bufferSize chunkSize).chCapacity = 0 := by
  unfold initBufferedReader
  by_cases hb : bufferSize < 0
  · simp [hb]
  · have h0 : bufferSize = 0 := by omega
    simp [h0]

theorem buffer_clamp_to_zero_witness :
    (initBufferedReader (-3) 7).BufferSize = 0
    ∧ (initBufferedReader (-3) 7).chCapacity = 0 :=
  buffer_clamp_to_zero (-3) 7 (by decide)

/-- C4: if the transform returns an error for some line (all earlier lines
succeeding), the pipeline delivers as its last chunk exactly the kept
results accumulated in the current chunk before the failing line together
with that error, closes Ch once, never delivers a chunk with a strictly
higher ID, and no line after the failing one influences the run (the
result is identical for every continuation of the input). -/
theorem transform_error_short_circuit {α ε : Type} (fn : String → α × Bool × Option ε)
    (cs : Nat) (pre post : List String) (failLine : String) (e : ε) (ending : Ending ε)
    (hcs : 1 ≤ cs) (hpre : ∀ l ∈ pre, (fn l).2.2 = none)
    (hfail : (fn failLine).2.2 = some e) :
    (∃ front lastId,
        (runBR fn cs none (pre ++ failLine :: post) ending).chunks
          = front ++ [⟨lastId, leftover cs (keptOf fn pre), some (.err e)⟩]
        ∧ ∀ c ∈ (runBR fn cs none (pre ++ failLine :: post) ending).chunks,
            c.ID ≤ lastId)
    ∧ (∀ (post' : List String) (ending' : Ending ε),
        runBR fn cs none (pre ++ failLine :: post') ending'
          = runBR fn cs none (pre ++ failLine :: post) ending)
    ∧ (traceFrom fn none (pre ++ failLine :: post) 0 ending).length
        = 2 * pre.length + 2
    ∧ (runBR fn cs none (pre ++ failLine :: post) ending).chCloseCount = 1 := by
  obtain ⟨front, lastId, hfr⟩ :=
    runFrom_fail_last fn cs hcs pre 0 0 [] failLine e post ending hpre hfail hcs
  simp only [List.nil_append] at hfr
  refine ⟨⟨front, lastId, hfr, ?_⟩, ?_,
    traceFrom_fail_length fn pre 0 failLine post ending hpre (by simp [hfail]),
    (runFrom_closes fn cs none _ 0 0 [] ending).1⟩
  · intro c hc
    have hr := runFrom_map_id fn cs none (pre ++ failLine :: post) 0 0 [] ending
    rw [runBR] at hc
    rw [hfr] at hr hc
    have := id_le_of_append_last front
      ⟨lastId, leftover cs (keptOf fn pre), some (.err e)⟩ 0 hr c hc
    simpa using this
  · intro post' ending'
    exact runFrom_fail_indep fn cs pre 0 0 [] failLine e post' post
      ending' ending hpre hfail

theorem transform_error_short_circuit_witness :
    (∃ front lastId,
        (runBR fnFailExample 2 none (["a\n"] ++ "BAD\n" :: ["c\n"]) (.eof "")).chunks
          = front ++ [⟨lastId, leftover 2 (keptOf fnFailExample ["a\n"]),
                       some (.err "boom")⟩]
        ∧ ∀ c ∈ (runBR fnFailExample 2 none
              (["a\n"] ++ "BAD\n" :: ["c\n"]) (.eof "")).chunks, c.ID ≤ lastId)
    ∧ (∀ (post' : List String) (ending' : Ending String),
        runBR fnFailExample 2 none (["a\n"] ++ "BAD\n" :: post') ending'
          = runBR fnFailExample 2 none (["a\n"] ++ "BAD\n" :: ["c\n"]) (.eof ""))
    ∧ (traceFrom fnFailExample none (["a\n"] ++ "BAD\n" :: ["c\n"]) 0
        (.eof "")).length = 2 * (["a\n"] : List String).length + 2
    ∧ (runBR fnFailExample 2 none
        (["a\n"] ++ "BAD\n" :: ["c\n"]) (.eof "")).chCloseCount = 1 :=
  transform_error_short_circuit fnFailExample 2 ["a\n"] ["c\n"] "BAD\n" "boom"
    (.eof "") (by decide) (by decide) (by decide)

/-- C5: if cancellation has been requested (the done channel is observed
closed from iteration c on, and the loop is at iteration t ≥ c), the
non-blocking poll fires before the next line read: the loop emits the
current partial buffer as a chunk bearing the distinguished ErrorCanceled
value, closes Ch and the reader exactly once, and performs no further
reads — the result is independent of the remaining lines and ending. -/
theorem cancel_observed {α ε : Type} (fn : String → α × Bool × Option ε) (cs : Nat)
    (c t id : Nat) (acc : List α) (lines : List String) (ending : Ending ε)
    (h : c ≤ t) :
    runFrom fn cs (some c) lines t id acc ending
      = ⟨[⟨id, acc, some .canceled⟩], 1, 1, true⟩ :=
  runFrom_cancel fn cs (some c) lines t id acc ending (by simpa [obsCancel] using h)

theorem cancel_observed_witness :
    runFrom DefaultFunc 2 (some 0) ["x\n", "y\n"] 0 0 [] (.eof "")
      = ⟨[⟨0, [], some .canceled⟩], 1, 1, true⟩ :=
  cancel_observed DefaultFunc 2 0 0 0 [] ["x\n", "y\n"] (.eof "") (by decide)

/-- C6: Cancel is idempotent and safe: calling it twice equals calling it
once, calling it when the finished flag is set is a no-op that changes no
state, and starting from the freshly initialized state any number of Cancel
calls closes the done channel at most once (so closing never panics) and
never closes the output channel Ch. -/
theorem cancel_idempotent_safe :
    (∀ s : CancelState, Cancel (Cancel s) = Cancel s)
    ∧ (∀ s : CancelState, s.finished = true → Cancel s = s)
    ∧ (∀ n : Nat, (Cancel^[n] initCancelState).doneCloseCount ≤ 1
        ∧ (Cancel^[n] initCancelState).chCloseCount = 0) := by
  refine ⟨?_, ?_, ?_⟩
  · intro s
    by_cases h : s.finished = false ∧ s.cancelled = false
    · simp [Cancel, h]
    · simp [Cancel, h]
  · intro s hs
    simp [Cancel, hs]
  · intro n
    rcases Cancel_iterate_cases n with h | h <;> rw [h] <;> simp [initCancelState]

theorem cancel_idempotent_safe_witness :
    Cancel ⟨true, false, 0, 0⟩ = ⟨true, false, 0, 0⟩ :=
  cancel_idempotent_safe.2.1 ⟨true, false, 0, 0⟩ rfl

/-- C7: when the line source reaches EOF with no read error and the
transform never fails, the run emits exactly what is buffered at that point
as the final chunk with nil Err — the kept results not yet flushed into a
full chunk, followed by the residual's kept result, possibly the empty
list — closes Ch exactly once, closes the line source exactly once, and
sets the finished flag; this holds for every finite error-free stream. -/
theorem normal_eof_termination {α ε : Type} (fn : String → α × Bool × Option ε)
    (cs : Nat) (lines : List String) (residual : String) (hcs : 1 ≤ cs)
    (hlines : ∀ l ∈ lines, (fn l).2.2 = none) (hres : (fn residual).2.2 = none) :
    (∃ front lastId,
        (runBR fn cs none lines (.eof residual)).chunks
          = front ++ [⟨lastId, leftover cs (keptOf fn lines) ++ eofKeep fn residual,
               none⟩])
    ∧ (runBR fn cs none lines (.eof residual)).chCloseCount = 1
    ∧ (runBR fn cs none lines (.eof residual)).readerCloseCount = 1
    ∧ (runBR fn cs none lines (.eof residual)).finished = true := by
  obtain ⟨front, lastId, hfr⟩ :=
    runFrom_noerr_last fn cs hcs lines 0 0 [] residual hlines hres hcs
  simp only [List.nil_append] at hfr
  obtain ⟨h1, h2, h3⟩ := runFrom_closes fn cs none lines 0 0 [] (.eof residual)
  exact ⟨⟨front, lastId, hfr⟩, h1, h2, h3⟩

theorem normal_eof_termination_witness :
    (∃ front lastId,
        (runBR DefaultFunc 2 none ["x\n"] (.eof "")).chunks
          = front ++ [⟨lastId,
               leftover 2 (keptOf DefaultFunc ["x\n"]) ++ eofKeep DefaultFunc "",
               none⟩])
    ∧ (runBR DefaultFunc 2 none ["x\n"] (.eof "")).chCloseCount = 1
    ∧ (runBR DefaultFunc 2 none ["x\n"] (.eof "")).readerCloseCount = 1
    ∧ (runBR DefaultFunc 2 none ["x\n"] (.eof "")).finished = true :=
  normal_eof_termination DefaultFunc 2 ["x\n"] "" (by decide) (by decide) (by decide)

/-- C8: count conservation — for every chunk size, every buffer size, and
every transform that never returns an error on the stream's lines (the read
lines followed by the EOF residual), the total number of kept results over
the Data of all delivered chunks equals the number of lines of that stream
for which the sequential reference application of the same transform
returns keep = true. -/
theorem count_conservation {α ε : Type} (fn : String → α × Bool × Option ε)
    (cs bufferSize : Nat) (lines : List String) (residual : String)
    (h : ∀ l ∈ lines ++ [residual], (fn l).2.2 = none) :
    (((runBR fn cs none lines (.eof residual)).chunks.map Chunk.Data).flatten).length
      = seqKeptCount fn (lines ++ [residual]) := by
  have hlines : ∀ l ∈ lines, (fn l).2.2 = none :=
    fun l hl => h l (List.mem_append_left _ hl)
  have hres : (fn residual).2.2 = none :=
    h residual (List.mem_append_right _ (by simp))
  rw [runBR, runFrom_noerr_flatten fn cs lines 0 0 [] residual hlines hres]
  simp only [List.nil_append, List.length_append]
  rw [keptOf_length_eq_seq fn lines hlines]
  rcases hr : fn residual with ⟨res, ok, er⟩
  rw [hr] at hres
  cases er with
  | some e => exact absurd hres (by simp)
  | none =>
    cases ok <;> simp [eofKeep, hr, seqKeptCount, List.filter_append, List.filter_cons]

theorem count_conservation_witness :
    (((runBR DefaultFunc 2 none ["x\n", "y\n", "z\n"] (.eof "")).chunks.map
        Chunk.Data).flatten).length
      = seqKeptCount DefaultFunc (["x\n", "y\n", "z\n"] ++ [""]) :=
  count_conservation DefaultFunc 2 5 ["x\n", "y\n", "z\n"] "" (by decide)

/-- C9: the run goroutine is the only invoker of the transform and calls it
sequentially, so at every instant at most one transform invocation is in
flight; in particular the number of chunks transformed simultaneously never
exceeds the configured buffer/concurrency parameter (a positive integer),
including the case bufferSize = 1 with chunk size 1. -/
theorem transform_concurrency_bound {α ε : Type} (fn : String → α × Bool × Option ε)
    (bufferSize : Nat) (cancelAt : Option Nat) (lines : List String)
    (ending : Ending ε) (hb : 1 ≤ bufferSize) :
    maxInFlight (traceFrom fn cancelAt lines 0 ending) ≤ 1
    ∧ maxInFlight (traceFrom fn cancelAt lines 0 ending) ≤ bufferSize := by
  have h1 : maxInFlight (traceFrom fn cancelAt lines 0 ending) ≤ 1 := by
    simpa [maxInFlight] using maxNestAux_le fn cancelAt lines 0 ending 0
  exact ⟨h1, le_trans h1 hb⟩

theorem transform_concurrency_bound_witness :
    maxInFlight (traceFrom DefaultFunc none ["x\n"] 0 (.eof "")) ≤ 1
    ∧ maxInFlight (traceFrom DefaultFunc none ["x\n"] 0 (.eof "")) ≤ 1 :=
  transform_concurrency_bound DefaultFunc 1 none ["x\n"] (.eof "") (by decide)

/-- C10: on end-of-stream the transform runs one extra time, on the EOF
residual (an error-free run performs one invocation per line plus exactly
one more); if it keeps the residual's result, that value is appended to the
final chunk's Data; consequently with DefaultFunc — which keeps every
string — and a newline-terminated input (empty residual), the last
delivered chunk's Data ends with the empty string. -/
theorem eof_residual_extra_invocation {α ε : Type} (fn : String → α × Bool × Option ε)
    (cs : Nat) (lines : List String) (residual : String) (hcs : 1 ≤ cs)
    (hlines : ∀ l ∈ lines, (fn l).2.2 = none) (hres : (fn residual).2.2 = none) :
    (traceFrom fn none lines 0 (.eof residual)).length = 2 * lines.length + 2
    ∧ (∃ front lastId,
        (runBR fn cs none lines (.eof residual)).chunks
          = front ++ [⟨lastId, leftover cs (keptOf fn lines) ++ eofKeep fn residual,
               none⟩])
    ∧ (∀ dlines : List String,
        ∃ front lastId ds,
          (runBR DefaultFunc cs none dlines (.eof "")).chunks
            = front ++ [⟨lastId, ds, none⟩] ∧ ds.getLast? = some "") := by
  refine ⟨traceFrom_noerr_length fn lines 0 residual hlines, ?_, ?_⟩
  · obtain ⟨front, lastId, hfr⟩ :=
      runFrom_noerr_last fn cs hcs lines 0 0 [] residual hlines hres hcs
    simp only [List.nil_append] at hfr
    exact ⟨front, lastId, hfr⟩
  · intro dlines
    obtain ⟨front, lastId, hfr⟩ :=
      runFrom_noerr_last DefaultFunc cs hcs dlines 0 0 [] ""
        (fun l _ => rfl) rfl hcs
    simp only [List.nil_append] at hfr
    refine ⟨front, lastId,
      leftover cs (keptOf DefaultFunc dlines) ++ eofKeep DefaultFunc "", hfr, ?_⟩
    have heof : eofKeep DefaultFunc "" = [""] := rfl
    rw [heof]
    exact List.getLast?_concat _

theorem eof_residual_extra_invocation_witness :
    (traceFrom DefaultFunc none ["x\n"] 0 (.eof "")).length = 2 * 1 + 2
    ∧ (∃ front lastId,
        (runBR DefaultFunc 1 none ["x\n"] (.eof "")).chunks
          = front ++ [⟨lastId,
               leftover 1 (keptOf DefaultFunc ["x\n"]) ++ eofKeep DefaultFunc "",
               none⟩])
    ∧ (∀ dlines : List String,
        ∃ front lastId ds,
          (runBR DefaultFunc 1 none dlines (.eof "")).chunks
            = front ++ [⟨lastId, ds, none⟩] ∧ ds.getLast? = some "") := by
  have h := eof_residual_extra_invocation DefaultFunc 1 ["x\n"] "" (by decide)
    (by intro l _; rfl) rfl
  simpa using h

end Breader
